import Mathlib

/-!
Shallow embedding of the FIT3155 assignment-2 programs (`a2q1.py`, `a2q2.py`,
`a2q3.py`, `a2q4.py`) and proofs about the spec's claims.

Modelling conventions:
* Python strings are modelled as `List Symb` with `Symb := Nat` (a symbol is its
  code point; Python's `<` / `sorted` on single-character strings orders by
  code point, which coincides with `<` on `Nat`).
* Python machine-unbounded `int`s are `Int` (or `Nat` where the source value is
  provably non-negative, e.g. loop counters over `range(N)`).
* Fallible operations (raising exceptions, `None`-keyed dictionary lookups,
  out-of-fuel loops standing for non-termination) return `Option`.
* Mutable object graphs (the suffix-tree nodes) are modelled as an arena:
  a `List UNode` indexed by creation order, with node 0 the root
  (the source's `Node 1`); attribute mutation is `List.set`.
-/

/-- A text symbol: the code point of a one-character Python string. -/
abbrev Symb := Nat

/-- Insert into a sorted list (kernel-evaluable model of Python `sorted`;
stable, and all uses sort lists whose keys are pairwise distinct). -/
def insertLe {α : Type} (le : α → α → Bool) (x : α) : List α → List α
  | [] => [x]
  | y :: ys => if le x y then x :: y :: ys else y :: insertLe le x ys

/-- Insertion sort by a boolean comparison. -/
def sortLe {α : Type} (le : α → α → Bool) : List α → List α
  | [] => []
  | x :: xs => insertLe le x (sortLe le xs)

namespace A2Q1

/-- Loop body of `mod_exp` from `a2q1.py` (`while exponent > 0`), with explicit
fuel.  The loop halves `exponent` every iteration, so `exponent + 1` units of
fuel always suffice. -/
def modExpLoop : Nat → Int → Int → Nat → Int → Int
  | 0, result, _, _, _ => result
  | fuel + 1, result, base, exponent, modulus =>
    if exponent = 0 then result
    else
      let result := if exponent % 2 = 1 then (result * base) % modulus else result
      let base := (base * base) % modulus
      modExpLoop fuel result base (exponent / 2) modulus

/-- Embedding of `mod_exp(base, exponent, modulus)` from `a2q1.py`
(`result = 1; base = base % modulus; while exponent > 0: ...`).
The exponent is a `Nat` (the claim restricts to `exponent >= 0`, and Python's
`//= 2` on non-negative ints is `Nat` division). -/
def mod_exp (base : Int) (exponent : Nat) (modulus : Int) : Int :=
  modExpLoop (exponent + 1) 1 (base % modulus) exponent modulus

end A2Q1

namespace A2Q2

/-- Append loop of `generate_fibonacci_up_to` from `a2q2.py`
(`while fibs[-1] <= n: fibs.append(fibs[-1] + fibs[-2])`), producing the part
of the list after the initial `[1, 2]`.  `a` is `fibs[-2]`, `b` is `fibs[-1]`.
The last element grows by at least one per iteration (since `a >= 1` along
every reachable call), so fuel `n + 2` always suffices. -/
def fibTail : Nat → Nat → Nat → Nat → List Nat
  | 0, _, _, _ => []
  | fuel + 1, n, a, b => if b ≤ n then (a + b) :: fibTail fuel n b (a + b) else []

/-- Embedding of `generate_fibonacci_up_to(n)` from `a2q2.py`: starts from
`fibs = [1, 2]` and appends `fibs[-1] + fibs[-2]` while `fibs[-1] <= n`. -/
def generate_fibonacci_up_to (n : Nat) : List Nat :=
  1 :: 2 :: fibTail (n + 2) n 1 2

/-- Greedy bit-picking loop of `fibonacci_encode` from `a2q2.py`
(`for i in range(len(fibs) - 2, -1, -1): if fibs[i] <= remaining: ...`).
The input list is `fibs[0 .. len-2]` in index order; the recursion first
processes the tail (the larger Fibonacci numbers, as the Python loop walks the
indices downward) and then decides the head bit against the remaining value.
Returns the bit list (index-aligned with the input) and the final remainder. -/
def greedyBits : List Nat → Nat → List Bool × Nat
  | [], r => ([], r)
  | f :: fs, r =>
    let p := greedyBits fs r
    if f ≤ p.2 then (true :: p.1, p.2 - f) else (false :: p.1, p.2)

/-- Trailing-zero trim of `fibonacci_encode`
(`while code_bits and code_bits[-1] == 0: code_bits.pop()`). -/
def trimTrailingZeros (bs : List Bool) : List Bool :=
  (bs.reverse.dropWhile (fun b => b = false)).reverse

/-- Body of `fibonacci_encode(n)` from `a2q2.py` for a positive `n`: greedy
Zeckendorf bits over `fibs[:-1]`, trailing zeros trimmed, and a final `1` bit
appended (`return codeword + '1'`).  A bit `true` is the character `'1'`. -/
def fibonacci_encode_pos (n : Nat) : List Bool :=
  let fibs := generate_fibonacci_up_to n
  let p := greedyBits fibs.dropLast n
  trimTrailingZeros p.1 ++ [true]

/-- Embedding of `fibonacci_encode(n)` from `a2q2.py`; `none` models the
`ValueError` raised on `n <= 0`. -/
def fibonacci_encode (n : Int) : Option (List Bool) :=
  if n ≤ 0 then none else some (fibonacci_encode_pos n.toNat)

/-- Fibonacci sequence used by the coder: `F 0 = 1, F 1 = 2, F (k+2) = F k + F (k+1)`
(the sequence `1, 2, 3, 5, 8, ...` of the spec). -/
def fibSeq : Nat → Nat
  | 0 => 1
  | 1 => 2
  | k + 2 => fibSeq k + fibSeq (k + 1)

/-- Decoder for Fibonacci codes (from the spec's words: sum the Fibonacci
numbers at set-bit positions).  `k` is the Fibonacci index of the head bit. -/
def decodeFib : List Bool → Nat → Nat
  | [], _ => 0
  | b :: bs, k => (if b then fibSeq k else 0) + decodeFib bs (k + 1)

/-- The list `[fibSeq j, fibSeq (j+1), ..., fibSeq (j+len-1)]`. -/
def fibRange (j len : Nat) : List Nat :=
  (List.range len).map (fun t => fibSeq (j + t))

/-- The Fibonacci number conceptually one position below index `j`
(`fibPred 0 = 1` so that `fibSeq (j+1) = fibSeq j + fibPred j` holds also at
`j = 0`). -/
def fibPred (j : Nat) : Nat := if j = 0 then 1 else fibSeq (j - 1)

end A2Q2

namespace A2Q3

/-- Edge end of a suffix-tree node: either a fixed integer or the shared
mutable `EndRef` (`self.leaf_end`); there is exactly one `EndRef` per tree in
`a2q3.py`, so the reference is resolved against the tree state's `leafEnd`. -/
inductive NEnd where
  | fixed (v : Int)
  | ref
deriving DecidableEq, Repr

/-- Suffix-tree node (`class Node` of `a2q3.py`).  `children` is the
insertion-ordered dictionary mapping the first character of an outgoing edge
to the child's arena index; a key can be `none` because the source stores
`self.active_edge_char` (an `Optional[str]`) as the key.  The node id of the
source is arena index + 1. -/
structure UNode where
  children : List (Option Symb × Nat)
  suffixLink : Option Nat
  start : Int
  eend : NEnd
deriving DecidableEq, Repr

instance : Inhabited UNode := ⟨{ children := [], suffixLink := none, start := -1, eend := .fixed (-1) }⟩

/-- Whole-tree state of `class SuffixTree` (`a2q3.py`): the node arena plus
the active point, remainder, shared leaf end and the pending-internal slot. -/
structure ST where
  text : List Symb
  nodes : List UNode
  activeNode : Nat
  activeEdgeChar : Option Symb
  activeLength : Int
  remainder : Int
  leafEnd : Int
  lastNewInternal : Option Nat
deriving Repr

/-- Node at arena index `i` (indices are always in range along real runs). -/
def getNode (st : ST) (i : Nat) : UNode := st.nodes.getD i default

/-- `self.text[i]` (indices are always in range along real runs). -/
def txt (st : ST) (i : Int) : Symb := st.text.getD i.toNat 0

/-- Python dictionary lookup `children[c]`. -/
def childLookup (n : UNode) (k : Option Symb) : Option Nat :=
  (n.children.find? (fun p => p.1 = k)).map (fun p => p.2)

/-- Python dictionary update `children[c] = v`: replaces in place if the key
is present, appends otherwise (insertion order preserved). -/
def assocSet : List (Option Symb × Nat) → Option Symb → Nat → List (Option Symb × Nat)
  | [], k, v => [(k, v)]
  | p :: ps, k, v => if p.1 = k then (k, v) :: ps else p :: assocSet ps k v

/-- Update the `children` dictionary of a node. -/
def childInsert (n : UNode) (k : Option Symb) (v : Nat) : UNode :=
  { n with children := assocSet n.children k v }

/-- Overwrite the node at arena index `i` (attribute mutation). -/
def setNode (st : ST) (i : Nat) (n : UNode) : ST :=
  { st with nodes := st.nodes.set i n }

/-- Resolve a node's end value (`node.end.val if isinstance(node.end, EndRef)
else node.end`). -/
def endVal (st : ST) (n : UNode) : Int :=
  match n.eend with
  | .fixed v => v
  | .ref => st.leafEnd

/-- Embedding of `SuffixTree._edge_length`. -/
def edgeLength (st : ST) (i : Nat) : Int :=
  let n := getNode st i
  if n.start = -1 then 0 else endVal st n - n.start + 1

/-- Shared active-point update after a Rule-2 extension (both the "alternate"
and the "regular" branch of `build` run the same code): from the root with
positive active length, decrement the length and recompute the active edge
character from `text[i - remainder + 1]` (only when in range); otherwise
follow the active node's suffix link (root if unset). -/
def afterRule2 (st : ST) (i : Nat) : ST :=
  if st.activeNode = 0 ∧ st.activeLength > 0 then
    let st := { st with activeLength := st.activeLength - 1 }
    let startIndex : Int := (i : Int) - st.remainder + 1
    if startIndex < (st.text.length : Int) then
      { st with activeEdgeChar := some (txt st startIndex) }
    else st
  else
    { st with activeNode := ((getNode st st.activeNode).suffixLink).getD 0 }

/-- Inner `while self.remainder > 0` loop of `SuffixTree.build` for phase `i`,
with fuel (`none` models non-termination; the loop always terminates on real
runs, where every iteration either walks down one edge or consumes one unit of
`remainder`).  Mirrors the source line by line:
Rule 2 (alternate) when the active edge key is absent, walk-down, Rule 3 when
the next symbol on the edge matches `text[i]` (ends the phase), and Rule 2
(regular) edge split otherwise. -/
def extend : Nat → ST → Nat → Option ST
  | 0, _, _ => none
  | fuel + 1, st, i =>
    if st.remainder ≤ 0 then some st
    else
      let st := if st.activeLength = 0 then { st with activeEdgeChar := some (txt st (i : Int)) } else st
      match childLookup (getNode st st.activeNode) st.activeEdgeChar with
      | none =>
        -- Rule 2 (alternate): create a fresh leaf under the active node.
        let leafIdx := st.nodes.length
        let leaf : UNode := { children := [], suffixLink := none, start := (i : Int), eend := .ref }
        let st := { st with nodes := st.nodes ++ [leaf] }
        let st := setNode st st.activeNode (childInsert (getNode st st.activeNode) st.activeEdgeChar leafIdx)
        let st :=
          match st.lastNewInternal with
          | some p =>
            let st := setNode st p { getNode st p with suffixLink := some st.activeNode }
            { st with lastNewInternal := none }
          | none => st
        let st := { st with remainder := st.remainder - 1 }
        extend fuel (afterRule2 st i) i
      | some nextIdx =>
        let el := edgeLength st nextIdx
        if st.activeLength ≥ el then
          -- `_walk_down`: consume the edge and retry the same extension.
          let ns := (getNode st nextIdx).start
          let st :=
            { st with
              activeEdgeChar :=
                if ns + el < (st.text.length : Int) then some (txt st (ns + el)) else none,
              activeLength := st.activeLength - el,
              activeNode := nextIdx }
          extend fuel st i
        else
          let edgePos := (getNode st nextIdx).start + st.activeLength
          if txt st edgePos = txt st (i : Int) then
            -- Rule 3: symbol already on the edge; extend and end the phase.
            let st := { st with activeLength := st.activeLength + 1 }
            let st :=
              match st.lastNewInternal with
              | some p =>
                if st.activeNode ≠ 0 then
                  let st := setNode st p { getNode st p with suffixLink := some st.activeNode }
                  { st with lastNewInternal := none }
                else st
              | none => st
            some st
          else
            -- Rule 2 (regular): split the edge, insert internal + leaf.
            let splitIdx := st.nodes.length
            let nextStart := (getNode st nextIdx).start
            let split : UNode :=
              { children := [], suffixLink := none, start := nextStart, eend := .fixed (edgePos - 1) }
            let st := { st with nodes := st.nodes ++ [split] }
            let st := setNode st st.activeNode (childInsert (getNode st st.activeNode) st.activeEdgeChar splitIdx)
            let leafIdx := st.nodes.length
            let leaf : UNode := { children := [], suffixLink := none, start := (i : Int), eend := .ref }
            let st := { st with nodes := st.nodes ++ [leaf] }
            let st := setNode st nextIdx { getNode st nextIdx with start := edgePos }
            let st := setNode st splitIdx (childInsert (getNode st splitIdx) (some (txt st edgePos)) nextIdx)
            let st := setNode st splitIdx (childInsert (getNode st splitIdx) (some (txt st (i : Int))) leafIdx)
            let st :=
              match st.lastNewInternal with
              | some p => setNode st p { getNode st p with suffixLink := some splitIdx }
              | none => st
            let st := { st with lastNewInternal := some splitIdx }
            let st := { st with remainder := st.remainder - 1 }
            extend fuel (afterRule2 st i) i

/-- Fuel bound for one phase's extension loop: at most `N + 1` extensions per
phase, each with at most `nodes`-many walk-downs, so a cubic bound is ample. -/
def phaseFuel (st : ST) : Nat :=
  (st.text.length + 2) * (st.text.length + 2) * (st.text.length + 2)

/-- One phase of `SuffixTree.build`: advance the shared leaf end, bump the
remainder, clear the pending-internal slot, run the extension loop, and link
any still-pending internal node to the root. -/
def phase (st : ST) (i : Nat) : Option ST :=
  let st := { st with leafEnd := (i : Int), remainder := st.remainder + 1, lastNewInternal := none }
  match extend (phaseFuel st) st i with
  | none => none
  | some st =>
    match st.lastNewInternal with
    | some p =>
      some { setNode st p { getNode st p with suffixLink := some 0 } with lastNewInternal := none }
    | none => some st

/-- Initial state of `SuffixTree.__init__`: arena holds only the root
(source `Node 1`, arena index 0) whose suffix link is itself. -/
def initST (text : List Symb) : ST :=
  { text := text,
    nodes := [{ children := [], suffixLink := some 0, start := -1, eend := .fixed (-1) }],
    activeNode := 0,
    activeEdgeChar := none,
    activeLength := 0,
    remainder := 0,
    leafEnd := -1,
    lastNewInternal := none }

/-- Embedding of `SuffixTree(text); st.build()`: phases `i = 0 .. N-1`. -/
def build (text : List Symb) : Option ST :=
  (List.range text.length).foldlM phase (initST text)

/-- Sorting pass `sorted(node.children.keys())` of `_dfs_suffix_array`.
Python's `sorted` never compares the elements of a list of length `<= 1`; on
two or more keys it raises `TypeError` as soon as a `None` key meets a string
key, which `none` models.  Otherwise the keys (all single characters) sort by
code point. -/
def sortedChildren (cs : List (Option Symb × Nat)) : Option (List (Option Symb × Nat)) :=
  match cs with
  | [] => some []
  | [c] => some [c]
  | _ =>
    if cs.all (fun p => p.1.isSome) then
      some ((sortLe (fun a b => a.1 ≤ b.1) (cs.map (fun p => (p.1.getD 0, p.2))))
              |>.map (fun p => (some p.1, p.2)))
    else none

/-- Worklist form of `SuffixTree._dfs_suffix_array`: each stack entry is a
(node, accumulated path length) pair.  A node with children pushes them, in
ascending first-symbol order, ahead of the remaining work; a leaf (no
children) emits `N - depth + 1`.  Only leaves emit, so the emitted order is
exactly the source's recursive depth-first order. -/
def dfsWork (st : ST) : Nat → List (Nat × Int) → Option (List Int)
  | 0, _ => none
  | _ + 1, [] => some []
  | fuel + 1, (idx, depth) :: rest =>
    let n := getNode st idx
    match sortedChildren n.children with
    | none => none
    | some cs =>
      if n.children.isEmpty then
        (dfsWork st fuel rest).map (fun r => ((st.text.length : Int) - depth + 1) :: r)
      else
        dfsWork st fuel (cs.map (fun p => (p.2, depth + edgeLength st p.2)) ++ rest)

/-- Embedding of `SuffixTree.suffix_array()`. -/
def suffix_array (st : ST) : Option (List Int) :=
  dfsWork st (2 * st.nodes.length + 2) [(0, 0)]

/-- The whole `a2q3` pipeline on a text: build the tree, extract the array. -/
def saOfText (text : List Symb) : Option (List Int) :=
  (build text).bind suffix_array

end A2Q3

namespace A2Q4

/-- Python sequence indexing `s[i]` with negative-index wrapping; `none`
models `IndexError`. -/
def pyGet (s : List Symb) (i : Int) : Option Symb :=
  let j := if i < 0 then (s.length : Int) + i else i
  if 0 ≤ j then s.get? j.toNat else none

/-- Embedding of `bwt_from_sa(s, sa)` from `a2q4.py`:
`''.join(s[-1] if i == 1 else s[i - 2] for i in sa)`. -/
def bwt_from_sa (s : List Symb) (sa : List Int) : Option (List Symb) :=
  sa.mapM (fun i => if i = 1 then pyGet s (-1) else pyGet s (i - 2))

/-- Huffman work node (`class Node` inside `build_huffman_codes`). -/
inductive HNode where
  | leaf (freq : Nat) (sym : Symb)
  | node (freq : Nat) (l r : HNode)
deriving DecidableEq, Repr

/-- The `freq` attribute. -/
def HNode.fr : HNode → Nat
  | .leaf f _ => f
  | .node f _ _ => f

/-- The `sym` attribute (`None` on merged nodes). -/
def HNode.sym? : HNode → Option Symb
  | .leaf _ s => some s
  | .node _ _ _ => none

/-- Embedding of `Node.__lt__`: by frequency, then lexicographically smaller
symbol, a leaf before a merged node; two merged nodes of equal frequency do
not compare less. -/
def hlt (a b : HNode) : Bool :=
  if a.fr ≠ b.fr then a.fr < b.fr
  else
    match a.sym?, b.sym? with
    | some s, some t => s < t
    | some _, none => true
    | none, _ => false

/-- Model of `heapq.heappop`: removes an element that is minimal with respect
to `Node.__lt__` (the heap library's contract; which minimal element wins a
tie is unspecified by the library, here the scan keeps the earliest). -/
def popMin (l : List HNode) : Option (HNode × List HNode) :=
  match l with
  | [] => none
  | x :: xs =>
    let m := xs.foldl (fun acc y => if hlt y acc then y else acc) x
    some (m, l.erase m)

/-- The `while len(heap) > 1` merge loop of `build_huffman_codes`: pop the two
smallest nodes, push their merge (`heapq.heappush` modelled as appending;
position in the pool does not affect which element is minimal). -/
def mergeLoop : Nat → List HNode → List HNode
  | 0, h => h
  | fuel + 1, h =>
    if h.length > 1 then
      match popMin h with
      | none => h
      | some (a, h1) =>
        match popMin h1 with
        | none => h
        | some (b, h2) => mergeLoop fuel (h2 ++ [.node (a.fr + b.fr) a b])
    else h

/-- Frequency of a symbol in the text (the `freq` dictionary). -/
def countFreq (text : List Symb) (c : Symb) : Nat := text.count c

/-- The distinct symbols of a text in ascending order (`sorted(freq.items())`
keys in `build_huffman_codes`, `sorted(set(bwt))` in `encode_part_I_bwt`). -/
def sortedDistinct (text : List Symb) : List Symb :=
  sortLe (fun a b => a ≤ b) text.dedup

/-- Embedding of the recursive `traverse(node, prefix)` of
`build_huffman_codes`: a leaf records `prefix or "1"`, a merged node recurses
left with `prefix + "0"` and right with `prefix + "1"`.  The resulting
association list is the `codes` dictionary in insertion order (symbols at
distinct leaves are distinct, so each is written once). -/
def trav : HNode → List Bool → List (Symb × List Bool)
  | .leaf _ s, p => [(s, if p = [] then [true] else p)]
  | .node _ l r, p => trav l (p ++ [false]) ++ trav r (p ++ [true])

/-- Embedding of `build_huffman_codes(text)` from `a2q4.py`.  `none` models
the `IndexError` raised by `heap[0]` on an empty text.  Fuel `heap.length`
covers the `len - 1` merge iterations. -/
def build_huffman_codes (text : List Symb) : Option (List (Symb × List Bool)) :=
  let syms := sortedDistinct text
  match syms with
  | [] => none
  | [s] => some [(s, [true])]
  | _ =>
    let heap := syms.map (fun c => HNode.leaf (countFreq text c) c)
    match (mergeLoop heap.length heap).head? with
    | none => none
    | some root => some (trav root [])

/-- Symbols at the leaves of a Huffman work node, left to right. -/
def leafSyms : HNode → List Symb
  | .leaf _ s => [s]
  | .node _ l r => leafSyms l ++ leafSyms r

/-- Symbols at the leaves of a whole pool of work nodes. -/
def heapSyms (h : List HNode) : List Symb := h.flatMap leafSyms

/-- Dictionary lookup `codes[ch]`. -/
def lookupCode (codes : List (Symb × List Bool)) (s : Symb) : Option (List Bool) :=
  (codes.find? (fun p => p.1 = s)).map (fun p => p.2)

/-- Concatenation of the codewords of a symbol sequence (the spec's encoding
side of the Huffman round trip). -/
def encodeSeq (codes : List (Symb × List Bool)) (seq : List Symb) : Option (List Bool) :=
  (seq.mapM (lookupCode codes)).map List.flatten

/-- Greedy prefix-code decoder (from the spec's words: decoding the
concatenation of codewords).  Each step consumes the codeword of the matching
table entry; fuel `bits.length` suffices because codewords are non-empty. -/
def decodeHAux (codes : List (Symb × List Bool)) : Nat → List Bool → Option (List Symb)
  | _, [] => some []
  | 0, _ :: _ => none
  | fuel + 1, b :: bs =>
    match codes.find? (fun p => p.2.isPrefixOf (b :: bs)) with
    | none => none
    | some p => (decodeHAux codes fuel ((b :: bs).drop p.2.length)).map (fun r => p.1 :: r)

/-- Decoder entry point. -/
def huffDecode (codes : List (Symb × List Bool)) (bits : List Bool) : Option (List Symb) :=
  decodeHAux codes bits.length bits

/-- Minimal binary digits of `x`, most significant first (`format(x, "b")`
without padding; empty for `x = 0`, fuel `x + 1` suffices since `x` at least
halves each step). -/
def natBitsAux : Nat → Nat → List Bool
  | 0, _ => []
  | fuel + 1, x => if x = 0 then [] else natBitsAux fuel (x / 2) ++ [x % 2 == 1]

/-- Embedding of `format(x, "07b")`: binary digits of `x` left-padded with
zeros to a minimum width of 7 — values of 128 or more yield more than 7 bits,
`format` never truncates and never raises. -/
def format07b (x : Nat) : List Bool :=
  let bs := if x = 0 then [false] else natBitsAux (x + 1) x
  List.replicate (7 - bs.length) false ++ bs

/-- Tail loop of `rle_runs` (`count`/append logic of `a2q4.py`). -/
def rleAux : List Symb → Symb → Nat → List (Nat × Symb)
  | [], prev, count => [(count, prev)]
  | c :: rest, prev, count =>
    if c = prev then rleAux rest prev (count + 1) else (count, prev) :: rleAux rest c 1

/-- Embedding of `rle_runs(s)`: maximal runs as `(count, symbol)` pairs. -/
def rle_runs : List Symb → List (Nat × Symb)
  | [] => []
  | c :: rest => rleAux rest c 1

/-- Embedding of `encode_part_I_bwt(s, sa)` from `a2q4.py`: Fibonacci-coded
BWT length and distinct-symbol count; per distinct symbol the `format(ord(ch),
"07b")` field, the Fibonacci-coded code length and the Huffman code; then the
run-length encoding of the BWT.  `none` models any exception raised by a
constituent. -/
def encode_part_I_bwt (s : List Symb) (sa : List Int) : Option (List Bool) := do
  let bwt ← bwt_from_sa s sa
  let b1 ← A2Q2.fibonacci_encode (bwt.length : Int)
  let distinct := sortedDistinct bwt
  let b2 ← A2Q2.fibonacci_encode (distinct.length : Int)
  let codes ← build_huffman_codes bwt
  let perSym ← distinct.mapM (fun ch => do
    let code ← lookupCode codes ch
    let bl ← A2Q2.fibonacci_encode (code.length : Int)
    pure (format07b ch ++ bl ++ code))
  let perRun ← (rle_runs bwt).mapM (fun rc => do
    let bl ← A2Q2.fibonacci_encode (rc.1 : Int)
    let code ← lookupCode codes rc.2
    pure (bl ++ code))
  pure (b1 ++ b2 ++ perSym.flatten ++ perRun.flatten)

end A2Q4

/-- Standard lexicographic `<=` on symbol sequences (Python string
comparison), used to state the suffix-array ordering claims. -/
def lexLe : List Symb → List Symb → Bool
  | [], _ => true
  | _ :: _, [] => false
  | a :: as, b :: bs => if a < b then true else if b < a then false else lexLe as bs

namespace A2Q3

/-- Label of the incoming edge of the node at `idx`: `text[start .. end]`. -/
def edgeLabel (st : ST) (idx : Nat) : List Symb :=
  let n := getNode st idx
  (st.text.drop n.start.toNat).take (endVal st n - n.start + 1).toNat

/-- Worklist computation of the path label (concatenation of edge labels from
the root) of every node, used to state the suffix-link claim. -/
def labelsWork (st : ST) : Nat → List (Nat × List Symb) → Option (List (Nat × List Symb))
  | 0, _ => none
  | _ + 1, [] => some []
  | fuel + 1, (idx, lab) :: rest =>
    let n := getNode st idx
    (labelsWork st fuel ((n.children.map (fun p => (p.2, lab ++ edgeLabel st p.2))) ++ rest)).map
      (fun r => (idx, lab) :: r)

/-- Path labels of all nodes reachable from the root. -/
def pathLabels (st : ST) : Option (List (Nat × List Symb)) :=
  labelsWork st (2 * st.nodes.length + 2) [(0, [])]

/-- Path label of one node. -/
def labelOf (st : ST) (idx : Nat) : Option (List Symb) :=
  (pathLabels st).bind (fun l => (l.find? (fun p => p.1 = idx)).map (fun p => p.2))

/-- Text transformation done by `main()` of `a2q3.py` between reading the
(stripped, non-empty) input and `SuffixTree(text)`: the text is passed through
unchanged — `text = s` with no sentinel appended. -/
def mainPrepare (s : List Symb) : List Symb := s

/-- The text `"abaaaa$"` (`a` = 97, `b` = 98, `$` = 36): non-empty, its last
symbol is the sentinel `'$'`, which occurs nowhere else. -/
def cexText : List Symb := [97, 98, 97, 97, 97, 97, 36]

/-- The text `"banana$"`. -/
def bananaText : List Symb := [98, 97, 110, 97, 110, 97, 36]

end A2Q3

namespace A2Q4

/-- Text transformation done by `main()` of `a2q4.py` between reading the
stripped input and `SuffixTree(S, ...)`: append `'$'` (code point 36) unless
the text already ends with it. -/
def mainPrepare (s : List Symb) : List Symb :=
  if s.getLast? = some 36 then s else s ++ [36]

/-- Work item of the part-II serialization: a child edge still to process
(with the source's `depth` accumulator), or a pending bare ascend marker. -/
inductive SerItem where
  | child (idx : Nat) (depth : Int)
  | up
deriving DecidableEq, Repr

/-- Worklist form of the recursive `dfs` inside `encode_part_II_from_q3_tree`
(`a2q4.py`): processing a child emits the descend marker `0` and the
Fibonacci codes of the 1-based edge range; a leaf child then emits the ascend
marker `1` and the Fibonacci code of `N - (depth + path_len) + 1`; an internal
child queues its own children (in ascending first-symbol order) followed by a
bare ascend marker.  A child whose edge range is `None` (`start == -1`) is
skipped, as in the source.  `none` models an exception (a `None`-keyed sort,
a non-positive Fibonacci argument) or non-termination. -/
def ser1 (st : A2Q3.ST) : Nat → List SerItem → Option (List Bool)
  | 0, _ => none
  | _ + 1, [] => some []
  | fuel + 1, .up :: rest => (ser1 st fuel rest).map (fun r => true :: r)
  | fuel + 1, .child idx depth :: rest =>
    let n := A2Q3.getNode st idx
    if n.start = -1 then ser1 st fuel rest
    else
      let s1 := n.start + 1
      let e1 := A2Q3.endVal st n + 1
      do
        let fs ← A2Q2.fibonacci_encode s1
        let fe ← A2Q2.fibonacci_encode e1
        if n.children.isEmpty then
          let pathLen := e1 - (n.start + 1) + 1
          let suffixIndex := (st.text.length : Int) - (depth + pathLen) + 1
          let fsi ← A2Q2.fibonacci_encode suffixIndex
          let r ← ser1 st fuel rest
          pure (false :: fs ++ fe ++ [true] ++ fsi ++ r)
        else
          match A2Q3.sortedChildren n.children with
          | none => none
          | some cs =>
            let r ← ser1 st fuel ((cs.map (fun p => SerItem.child p.2 (depth + (e1 - s1 + 1)))) ++ (.up :: rest))
            pure (false :: fs ++ fe ++ r)

/-- Embedding of `encode_part_II_from_q3_tree(s, st)` from `a2q4.py`:
serialize the root's children depth-first and close the root with a final
ascend marker. -/
def encode_part_II_from_q3_tree (st : A2Q3.ST) : Option (List Bool) := do
  let cs ← A2Q3.sortedChildren (A2Q3.getNode st 0).children
  let body ← ser1 st (2 * st.nodes.length + 2) (cs.map (fun p => SerItem.child p.2 0))
  pure (body ++ [true])

/-- The DFS serialization in the spec's words, over the same worklist
skeleton: for each child a descend marker and the Fibonacci codes of the
1-based edge start and end; for a leaf child an ascend marker followed by the
Fibonacci code of the 1-based suffix start `N - path_length + 1`, where
`path_length` is the accumulated root-to-leaf path length in symbols; for an
internal child its subtree followed by a bare ascend marker. -/
def serSpec (st : A2Q3.ST) : Nat → List SerItem → Option (List Bool)
  | 0, _ => none
  | _ + 1, [] => some []
  | fuel + 1, .up :: rest => (serSpec st fuel rest).map (fun r => true :: r)
  | fuel + 1, .child idx plen :: rest =>
    let n := A2Q3.getNode st idx
    let s1 := n.start + 1
    let e1 := A2Q3.endVal st n + 1
    let elen := e1 - s1 + 1
    do
      let fs ← A2Q2.fibonacci_encode s1
      let fe ← A2Q2.fibonacci_encode e1
      if n.children.isEmpty then
        let fsi ← A2Q2.fibonacci_encode ((st.text.length : Int) - (plen + elen) + 1)
        let r ← serSpec st fuel rest
        pure (false :: fs ++ fe ++ [true] ++ fsi ++ r)
      else
        match A2Q3.sortedChildren n.children with
        | none => none
        | some cs =>
          let r ← serSpec st fuel ((cs.map (fun p => SerItem.child p.2 (plen + elen))) ++ (.up :: rest))
          pure (false :: fs ++ fe ++ r)

/-- Top-level DFS serialization in the spec's words: the root's children in
ascending first-symbol order, then a final ascend marker. -/
def dfsSerializationSpec (st : A2Q3.ST) : Option (List Bool) := do
  let cs ← A2Q3.sortedChildren (A2Q3.getNode st 0).children
  let body ← serSpec st (2 * st.nodes.length + 2) (cs.map (fun p => SerItem.child p.2 0))
  pure (body ++ [true])

/-- Well-formedness of a node arena: every child pointer stays inside the
arena and points at a node with a real incoming edge (`start != -1`).  The
trees built by `a2q3` satisfy this (only the root has `start = -1`, and it is
never a child). -/
def WFTree (st : A2Q3.ST) : Prop :=
  ∀ j, j < st.nodes.length → ∀ p ∈ (A2Q3.getNode st j).children,
    p.2 < st.nodes.length ∧ (A2Q3.getNode st p.2).start ≠ -1

instance (st : A2Q3.ST) : Decidable (WFTree st) := by
  unfold WFTree; infer_instance

end A2Q4

namespace A2Q1

/-- Invariant of the squaring loop: when the accumulator is already reduced
(`r % m = r`), the loop computes `(r * b ^ e) % m`. -/
theorem modExpLoop_spec (m : Int) :
    ∀ (e fuel : Nat), e < fuel → ∀ (r b : Int), r % m = r →
      modExpLoop fuel r b e m = (r * b ^ e) % m := by
  intro e
  induction e using Nat.strong_induction_on with
  | _ e ih =>
    intro fuel hfe r b hr
    match fuel, hfe with
    | fuel + 1, _ =>
      rw [modExpLoop]
      by_cases he : e = 0
      · subst he; simp [hr]
      · rw [if_neg he]
        have hrec := ih (e / 2) (Nat.div_lt_self (Nat.pos_of_ne_zero he) one_lt_two)
          fuel (by omega)
        by_cases hodd : e % 2 = 1
        · rw [if_pos hodd]
          rw [hrec ((r * b) % m) ((b * b) % m) (Int.emod_emod_of_dvd _ dvd_rfl)]
          have h1 : (r * b) % m ≡ r * b [ZMOD m] := Int.emod_emod_of_dvd _ dvd_rfl
          have h2 : (b * b) % m ≡ b * b [ZMOD m] := Int.emod_emod_of_dvd _ dvd_rfl
          have h3 : (r * b) % m * ((b * b) % m) ^ (e / 2) ≡ r * b * (b * b) ^ (e / 2) [ZMOD m] :=
            h1.mul (h2.pow (e / 2))
          rw [h3]
          congr 1
          have hk : e = 2 * (e / 2) + 1 := by omega
          conv_rhs => rw [hk]
          ring
        · rw [if_neg hodd]
          rw [hrec r ((b * b) % m) hr]
          have h2 : (b * b) % m ≡ b * b [ZMOD m] := Int.emod_emod_of_dvd _ dvd_rfl
          have h3 : r * ((b * b) % m) ^ (e / 2) ≡ r * (b * b) ^ (e / 2) [ZMOD m] :=
            (Int.ModEq.refl r).mul (h2.pow (e / 2))
          rw [h3]
          congr 1
          have hk : e = 2 * (e / 2) := by omega
          conv_rhs => rw [hk]
          ring

/-- With modulus 1 and at least one remaining iteration, the loop returns 0:
the accumulator is multiplied at least once and every product is reduced
modulo 1. -/
theorem modExpLoop_one :
    ∀ (e : Nat), 1 ≤ e → ∀ (fuel : Nat), e < fuel → ∀ (r b : Int),
      modExpLoop fuel r b e 1 = 0 := by
  intro e
  induction e using Nat.strong_induction_on with
  | _ e ih =>
    intro he fuel hfe r b
    match fuel, hfe with
    | fuel + 1, _ =>
      rw [modExpLoop]
      rw [if_neg (by omega)]
      by_cases hodd : e % 2 = 1
      · rw [if_pos hodd]
        by_cases he2 : e / 2 = 0
        · rw [he2]
          match fuel, (by omega : 0 < fuel) with
          | fuel + 1, _ => rw [modExpLoop, if_pos rfl, Int.emod_one]
        · rw [modExpLoop_spec 1 (e / 2) fuel (by omega) _ _
            (by rw [Int.emod_one, Int.emod_one])]
          rw [Int.emod_one]
      · rw [if_neg hodd]
        exact ih (e / 2) (Nat.div_lt_self (by omega) one_lt_two) (by omega) fuel (by omega) r _

end A2Q1

namespace A2Q1

/-- C10 (amended): for every integer base, every exponent `>= 0` and every
modulus `>= 1`, `mod_exp` returns `(base ^ exponent) % modulus`, a value in
`[0, modulus)` — except in the single corner case `exponent = 0` with
`modulus = 1`, where it returns 1 (see the counterexample). -/
theorem c10_mod_exp_correct (b : Int) (e : Nat) (m : Int)
    (hm : 1 ≤ m) (h : 2 ≤ m ∨ 1 ≤ e) :
    mod_exp b e m = b ^ e % m ∧ 0 ≤ mod_exp b e m ∧ mod_exp b e m < m := by
  have hm0 : m ≠ 0 := by omega
  have hmpos : 0 < m := by omega
  have hmain : mod_exp b e m = b ^ e % m := by
    rcases h with h2 | h1
    · rw [mod_exp, modExpLoop_spec m e (e + 1) (by omega) 1 (b % m)
        (Int.emod_eq_of_lt (by omega) (by omega)), one_mul]
      exact Int.ModEq.pow e (Int.emod_emod_of_dvd b dvd_rfl)
    · by_cases hm2 : 2 ≤ m
      · rw [mod_exp, modExpLoop_spec m e (e + 1) (by omega) 1 (b % m)
          (Int.emod_eq_of_lt (by omega) (by omega)), one_mul]
        exact Int.ModEq.pow e (Int.emod_emod_of_dvd b dvd_rfl)
      · have hm1 : m = 1 := by omega
        subst hm1
        rw [mod_exp, modExpLoop_one e h1 (e + 1) (by omega), Int.emod_one]
  refine ⟨hmain, ?_, ?_⟩
  · rw [hmain]; exact Int.emod_nonneg _ hm0
  · rw [hmain]; exact Int.emod_lt_of_pos _ hmpos

/-- C10 counterexample: at `base = 2, exponent = 0, modulus = 1` the code
returns 1, but `(2 ^ 0) % 1 = 0`, and 1 is not in `[0, 1)`. -/
theorem c10_counterexample :
    mod_exp 2 0 1 = 1 ∧ ((2 : Int) ^ (0 : Nat)) % 1 = 0 ∧ ¬ mod_exp 2 0 1 < 1 := by
  decide

/-- Witness for `c10_mod_exp_correct` at `base = 3, exponent = 5, modulus = 7`. -/
theorem c10_witness :
    (1 : Int) ≤ 7 ∧
      (mod_exp 3 5 7 = (3 : Int) ^ (5 : Nat) % 7 ∧ 0 ≤ mod_exp 3 5 7 ∧ mod_exp 3 5 7 < 7) :=
  ⟨by decide, c10_mod_exp_correct 3 5 7 (by decide) (Or.inl (by decide))⟩

end A2Q1

namespace A2Q2

/-- C5: `fibonacci_encode` rejects every non-positive integer input with an
error (modelled as `none`) before producing any output, and returns normally
(`some`) on every integer `n >= 1`. -/
theorem c5_fibonacci_encode_domain :
    (∀ n : Int, n ≤ 0 → fibonacci_encode n = none) ∧
      (∀ n : Int, 1 ≤ n → (fibonacci_encode n).isSome = true) := by
  constructor
  · intro n hn
    simp [fibonacci_encode, hn]
  · intro n hn
    simp [fibonacci_encode, show ¬ n ≤ 0 by omega]

/-- Witness for `c5_fibonacci_encode_domain` at `n = -3` and `n = 5`. -/
theorem c5_witness :
    fibonacci_encode (-3) = none ∧ (fibonacci_encode 5).isSome = true :=
  ⟨c5_fibonacci_encode_domain.1 (-3) (by decide),
   c5_fibonacci_encode_domain.2 5 (by decide)⟩

theorem fibSeq_pos (k : Nat) : 1 ≤ fibSeq k := by
  match k with
  | 0 => decide
  | 1 => decide
  | k + 2 =>
    have := fibSeq_pos k
    simp [fibSeq]
    omega

theorem fibSeq_le_succ (k : Nat) : fibSeq k ≤ fibSeq (k + 1) := by
  match k with
  | 0 => decide
  | k + 1 =>
    have h1 := fibSeq_pos k
    have h2 : fibSeq (k + 1 + 1) = fibSeq k + fibSeq (k + 1) := rfl
    omega

theorem fibSeq_succ_eq (j : Nat) : fibSeq (j + 1) = fibSeq j + fibPred j := by
  match j with
  | 0 => decide
  | j + 1 => simp [fibPred, fibSeq]; omega

theorem fibPred_le (j : Nat) : fibPred j ≤ fibSeq j := by
  match j with
  | 0 => decide
  | j + 1 => simpa [fibPred] using fibSeq_le_succ j

theorem fibPred_succ (j : Nat) : fibPred (j + 1) = fibSeq j := by
  simp [fibPred]

theorem fibRange_cons (j len : Nat) :
    fibRange j (len + 1) = fibSeq j :: fibRange (j + 1) len := by
  simp only [fibRange, List.range_succ_eq_map, List.map_cons, List.map_map, Nat.add_zero]
  congr 1
  apply List.map_congr_left
  intro t _
  simp only [Function.comp_apply]
  congr 1
  omega

/-- Invariant of the greedy loop over `[fibSeq j, ..., fibSeq (j+len-1)]` with
remaining value `r < fibSeq (j+len)`: the final remainder drops below
`fibSeq j`, the chosen Fibonacci numbers sum to what was consumed, no two
consecutive bits are set, and if the lowest bit is set the remainder is even
below `fibPred j`. -/
theorem greedy_spec :
    ∀ (len j r : Nat), r < fibSeq (j + len) →
      (greedyBits (fibRange j len) r).2 < fibSeq j ∧
      decodeFib (greedyBits (fibRange j len) r).1 j + (greedyBits (fibRange j len) r).2 = r ∧
      List.Chain' (fun a b => ¬(a = true ∧ b = true)) (greedyBits (fibRange j len) r).1 ∧
      ((greedyBits (fibRange j len) r).1.head? = some true →
        (greedyBits (fibRange j len) r).2 < fibPred j) := by
  intro len
  induction len with
  | zero =>
    intro j r h
    simp only [fibRange, List.range_zero, List.map_nil, greedyBits]
    exact ⟨by simpa using h, by simp [decodeFib], by simp, by simp⟩
  | succ len ih =>
    intro j r h
    rw [fibRange_cons]
    have hih := ih (j + 1) r (by
      have harg : j + 1 + len = j + (len + 1) := by omega
      rw [harg]; exact h)
    set p := greedyBits (fibRange (j + 1) len) r with hp
    obtain ⟨ih1, ih2, ih3, ih4⟩ := hih
    have hsum := fibSeq_succ_eq j
    have hple := fibPred_le j
    by_cases hf : fibSeq j ≤ p.2
    · have hres : greedyBits (fibSeq j :: fibRange (j + 1) len) r = (true :: p.1, p.2 - fibSeq j) := by
        simp [greedyBits, ← hp, hf]
      have hres1 : (greedyBits (fibSeq j :: fibRange (j + 1) len) r).1 = true :: p.1 := by
        rw [hres]
      have hres2 : (greedyBits (fibSeq j :: fibRange (j + 1) len) r).2 = p.2 - fibSeq j := by
        rw [hres]
      rw [hres1, hres2]
      refine ⟨by omega, ?_, ?_, ?_⟩
      · simp only [decodeFib, if_pos]
        omega
      · rw [List.chain'_cons']
        refine ⟨?_, ih3⟩
        intro y hy
        rintro ⟨-, hy2⟩
        subst hy2
        have : p.2 < fibPred (j + 1) := ih4 (Option.mem_def.mp hy)
        rw [fibPred_succ] at this
        omega
      · intro _
        omega
    · have hres : greedyBits (fibSeq j :: fibRange (j + 1) len) r = (false :: p.1, p.2) := by
        simp [greedyBits, ← hp, hf]
      have hres1 : (greedyBits (fibSeq j :: fibRange (j + 1) len) r).1 = false :: p.1 := by
        rw [hres]
      have hres2 : (greedyBits (fibSeq j :: fibRange (j + 1) len) r).2 = p.2 := by
        rw [hres]
      rw [hres1, hres2]
      refine ⟨by omega, ?_, ?_, ?_⟩
      · simp only [decodeFib]
        simp
        omega
      · rw [List.chain'_cons']
        exact ⟨fun y _ => by simp, ih3⟩
      · intro hh
        simp at hh

/-- The while-loop of `generate_fibonacci_up_to` produces consecutive
Fibonacci numbers until the first one exceeding `n`; fuel `>= n + 2` (minus
the current value) suffices. -/
theorem fibTail_eq :
    ∀ (fuel k n : Nat), n < fibSeq (k + 1) + fuel →
      ∃ L, k ≤ L ∧ n < fibSeq (L + 1) ∧
        fibTail fuel n (fibSeq k) (fibSeq (k + 1)) = fibRange (k + 2) (L - k) := by
  intro fuel
  induction fuel with
  | zero =>
    intro k n h
    exact ⟨k, le_refl k, by omega, by simp [fibTail, fibRange]⟩
  | succ fuel ih =>
    intro k n h
    by_cases hb : fibSeq (k + 1) ≤ n
    · have hstep : fibSeq k + fibSeq (k + 1) = fibSeq (k + 1 + 1) := rfl
      have hpos := fibSeq_pos k
      obtain ⟨L, hkL, hnL, heq⟩ := ih (k + 1) n (by omega)
      refine ⟨L, by omega, hnL, ?_⟩
      rw [fibTail, if_pos hb, hstep, heq]
      have hLk : L - k = (L - (k + 1)) + 1 := by omega
      rw [hLk]
      exact (fibRange_cons (k + 2) (L - (k + 1))).symm
    · exact ⟨k, le_refl k, by omega, by rw [fibTail, if_neg hb]; simp [fibRange]⟩

/-- `generate_fibonacci_up_to n` is `[fibSeq 0, ..., fibSeq (L+1)]` for some
`L` with `n < fibSeq (L + 1)` (the last element is the first to exceed `n`). -/
theorem generate_eq (n : Nat) :
    ∃ L, n < fibSeq (L + 1) ∧ generate_fibonacci_up_to n = fibRange 0 (L + 2) := by
  obtain ⟨L, -, hnL, heq⟩ := fibTail_eq (n + 2) 0 n (by have := fibSeq_pos 1; omega)
  refine ⟨L, hnL, ?_⟩
  rw [generate_fibonacci_up_to]
  have h0 : fibRange 0 (L + 2) = fibSeq 0 :: fibRange 1 (L + 1) := fibRange_cons 0 (L + 1)
  have h1 : fibRange 1 (L + 1) = fibSeq 1 :: fibRange 2 L := fibRange_cons 1 L
  rw [h0, h1]
  show (1 : Nat) :: 2 :: fibTail (n + 2) n 1 2 = fibSeq 0 :: fibSeq 1 :: fibRange 2 L
  rw [show fibTail (n + 2) n 1 2 = fibTail (n + 2) n (fibSeq 0) (fibSeq 1) from rfl, heq]
  rfl

theorem fibRange_dropLast (j len : Nat) :
    (fibRange j (len + 1)).dropLast = fibRange j len := by
  simp [fibRange, List.range_succ, List.dropLast_concat]

/-- Splitting off the trailing zeros removed by the trim. -/
theorem trim_split (bs : List Bool) :
    ∃ zs, bs = trimTrailingZeros bs ++ zs ∧ ∀ b ∈ zs, b = false := by
  refine ⟨(bs.reverse.takeWhile (fun b => b = false)).reverse, ?_, ?_⟩
  · rw [trimTrailingZeros]
    rw [← List.reverse_append, List.takeWhile_append_dropWhile, List.reverse_reverse]
  · intro b hb
    rw [List.mem_reverse] at hb
    have := List.mem_takeWhile_imp hb
    simpa using this

/-- Appended false bits contribute nothing to the decoded value. -/
theorem decodeFib_append_zeros (zs : List Bool) (hz : ∀ b ∈ zs, b = false) :
    ∀ (l : List Bool) (k : Nat), decodeFib (l ++ zs) k = decodeFib l k := by
  have haux : ∀ (ws : List Bool), (∀ b ∈ ws, b = false) → ∀ k, decodeFib ws k = 0 := by
    intro ws
    induction ws with
    | nil => intro _ k; simp [decodeFib]
    | cons w ws ihw =>
      intro hw k
      have hwf : w = false := hw w (by simp)
      rw [decodeFib, hwf, ihw (fun b hb => hw b (by simp [hb])) (k + 1)]
      simp
  intro l
  induction l with
  | nil =>
    intro k
    rw [List.nil_append, decodeFib]
    exact haux zs hz k
  | cons b l ihl =>
    intro k
    rw [List.cons_append, decodeFib, decodeFib, ihl (k + 1)]

/-- A non-empty trimmed list ends in a set bit. -/
theorem trim_getLast (bs : List Bool) (h : trimTrailingZeros bs ≠ []) :
    (trimTrailingZeros bs).getLast? = some true := by
  have haux : ∀ (l : List Bool) (x : Bool) (xs : List Bool),
      l.dropWhile (fun b => b = false) = x :: xs → x = true := by
    intro l
    induction l with
    | nil => intro x xs hx; simp [List.dropWhile] at hx
    | cons c l ihl =>
      intro x xs hx
      rw [List.dropWhile_cons] at hx
      by_cases hc : c = false
      · rw [if_pos (by simp [hc])] at hx
        exact ihl x xs hx
      · rw [if_neg (by simp [hc])] at hx
        cases hx
        simp only [Bool.not_eq_false] at hc
        exact hc
  rw [trimTrailingZeros] at h ⊢
  rcases hd : bs.reverse.dropWhile (fun b => b = false) with - | ⟨x, xs⟩
  · rw [hd] at h; simp at h
  · rw [List.getLast?_reverse]
    simp [haux bs.reverse x xs hd]

/-- C4: for every positive integer `n`, `fibonacci_encode` emits `body ++ "1"`
where `body` is non-empty and ends in a set bit (so the code always ends in
"11"), `body` has no two consecutive set bits (so the only "11" is the final
terminating pair), and summing the Fibonacci numbers `1, 2, 3, 5, ...` at the
set-bit positions of `body` (the bits before the terminator) reproduces `n` —
for all `n >= 1`, in particular over `[1, 100000]`. -/
theorem c4_fibonacci_encode_roundtrip (n : Int) (hn : 1 ≤ n) :
    ∃ body : List Bool,
      fibonacci_encode n = some (body ++ [true]) ∧
      body ≠ [] ∧
      body.getLast? = some true ∧
      List.Chain' (fun a b => ¬(a = true ∧ b = true)) body ∧
      (decodeFib body 0 : Int) = n := by
  have hne : ¬ n ≤ 0 := by omega
  rw [fibonacci_encode, if_neg hne]
  set m := n.toNat with hm
  have hm1 : 1 ≤ m := by omega
  obtain ⟨L, hnL, hgen⟩ := generate_eq m
  have hdrop : (generate_fibonacci_up_to m).dropLast = fibRange 0 (L + 1) := by
    rw [hgen, fibRange_dropLast]
  have hg := greedy_spec (L + 1) 0 m (by simpa using hnL)
  set q := greedyBits (fibRange 0 (L + 1)) m with hq
  obtain ⟨g1, g2, g3, g4⟩ := hg
  have hr0 : q.2 = 0 := by
    have h01 : fibSeq 0 = 1 := rfl
    omega
  have hdec : decodeFib q.1 0 = m := by omega
  obtain ⟨zs, hsplit, hz⟩ := trim_split q.1
  set body := trimTrailingZeros q.1 with hbody
  have hdecb : decodeFib body 0 = m := by
    rw [← hdec]
    conv_rhs => rw [hsplit]
    exact (decodeFib_append_zeros zs hz body 0).symm
  have hbne : body ≠ [] := by
    intro hbe
    rw [hbe] at hdecb
    simp [decodeFib] at hdecb
    omega
  refine ⟨body, ?_, hbne, trim_getLast q.1 (by rwa [← hbody]), ?_, ?_⟩
  · simp only [fibonacci_encode_pos]
    rw [hdrop, ← hq, ← hbody]
  · exact g3.prefix ⟨zs, hsplit.symm⟩
  · rw [hdecb, hm]
    exact Int.toNat_of_nonneg (by omega)

/-- Witness for `c4_fibonacci_encode_roundtrip` at `n = 11`
(code `001011`, Zeckendorf `11 = 3 + 8`). -/
theorem c4_witness :
    (1 : Int) ≤ 11 ∧
      ∃ body : List Bool,
        fibonacci_encode 11 = some (body ++ [true]) ∧
        body ≠ [] ∧
        body.getLast? = some true ∧
        List.Chain' (fun a b => ¬(a = true ∧ b = true)) body ∧
        (decodeFib body 0 : Int) = 11 :=
  ⟨by decide, c4_fibonacci_encode_roundtrip 11 (by decide)⟩

end A2Q2

namespace A2Q3

/-- C1 (run of the code at the failing input): on the sentinel-terminated text
`"abaaaa$"`, `SuffixTree(T).build(); suffix_array()` returns
`[7, 4, 3, 5, 1, 6, 2]`.  This is not sorted by suffix order: the adjacent
entries `3` and `5` (positions 3 and 4 of the output) violate
`T[SA[k]:] <= T[SA[k+1]:]`, since the suffix `"aa$"` starting at 5 is strictly
smaller than the suffix `"aaaa$"` starting at 3.  (The cause: `_walk_down`
recomputes the active edge character from `text[next_node.start + edge_len]`,
the continuation of the edge's occurrence in the text, which differs from the
continuation of the pending remainder, so phase 7 splits the wrong edge.) -/
theorem c1_suffix_array_wrong_on_abaaaa :
    saOfText cexText = some [7, 4, 3, 5, 1, 6, 2] ∧
      lexLe (cexText.drop (3 - 1)) (cexText.drop (5 - 1)) = false := by
  decide

/-- C2 (run of the code at the failing input): in the tree built for
`"abaaaa$"`, the non-root internal node at arena index 5 (source Node 6) has
path label `"aaa"` but its suffix link points to the internal node at arena
index 7 (source Node 8) whose path label is `"ab"` — not `"aa"`, the path
label required by the claim (the source label with its first symbol removed). -/
theorem c2_suffix_link_wrong_on_abaaaa :
    ((build cexText).map (fun st =>
        ((getNode st 5).children.isEmpty, (getNode st 5).suffixLink,
          labelOf st 5, labelOf st 7))
      = some (false, some 7, some [97, 97, 97], some [97, 98])) ∧
      some ([97, 97, 97] : List Symb).tail ≠ some [97, 98] := by
  decide

/-- C9 (run of the code at the failing input): for an input text `"abc"` that
does not end with `'$'`, the `a2q3.py` entry point hands the text to the
suffix-tree builder unchanged (no sentinel appended), while the `a2q4.py`
entry point appends the sentinel. -/
theorem c9_a2q3_main_appends_no_sentinel :
    A2Q3.mainPrepare [97, 98, 99] = [97, 98, 99] ∧
      ([97, 98, 99] : List Symb).getLast? ≠ some 36 ∧
      A2Q4.mainPrepare [97, 98, 99] = [97, 98, 99, 36] := by
  decide

end A2Q3

namespace A2Q4

/-- Reading `s[-1]` on a non-empty list is its last element. -/
theorem pyGet_neg_one (s : List Symb) (hs : s ≠ []) : pyGet s (-1) = s.getLast? := by
  have hlen0 : 0 < s.length := List.length_pos.mpr hs
  rw [pyGet]
  have h1 : (if (-1 : Int) < 0 then (s.length : Int) + (-1) else (-1)) = (s.length : Int) - 1 := by
    rw [if_pos (by omega)]; ring
  simp only [h1]
  rw [if_pos (by omega)]
  have h2 : ((s.length : Int) - 1).toNat = s.length - 1 := by omega
  rw [h2, List.getLast?_eq_getElem?]
  simp

/-- Reading `s[i]` at a non-negative in-range index. -/
theorem pyGet_nonneg (s : List Symb) (i : Int) (h0 : 0 ≤ i) :
    pyGet s i = s[i.toNat]? := by
  rw [pyGet]
  have h1 : (if i < 0 then (s.length : Int) + i else i) = i := by
    rw [if_neg (by omega)]
  simp only [h1]
  rw [if_pos h0]
  simp

/-- Pointwise description of `bwt_from_sa` for a non-empty text and in-range
1-based array entries. -/
theorem bwt_from_sa_pointwise (s : List Symb) (hs : s ≠ []) :
    ∀ (sa : List Int), (∀ i ∈ sa, 1 ≤ i ∧ i ≤ (s.length : Int)) →
      ∃ b, bwt_from_sa s sa = some b ∧ b.length = sa.length ∧
        ∀ (k : Nat) (i : Int), sa[k]? = some i →
          b[k]? = if i = 1 then s.getLast? else s[(i - 2).toNat]? := by
  have hlen0 : 0 < s.length := List.length_pos.mpr hs
  intro sa
  induction sa with
  | nil =>
    intro _
    refine ⟨[], rfl, rfl, ?_⟩
    intro k i h
    simp at h
  | cons i rest ihsa =>
    intro h
    obtain ⟨hi1, hi2⟩ := h i (by simp)
    obtain ⟨b, hb, hblen, hbpt⟩ := ihsa (fun j hj => h j (by simp [hj]))
    have hhead : ∃ v, (if i = 1 then pyGet s (-1) else pyGet s (i - 2)) = some v ∧
        some v = (if i = 1 then s.getLast? else s[(i - 2).toNat]?) := by
      by_cases hi : i = 1
      · subst hi
        have hlt : s.length - 1 < s.length := by omega
        rw [if_pos rfl, if_pos rfl, pyGet_neg_one s hs, List.getLast?_eq_getElem?]
        exact ⟨s.get ⟨s.length - 1, hlt⟩, by simp [List.getElem?_eq_getElem hlt],
          by simp [List.getElem?_eq_getElem hlt]⟩
      · have hge : (2 : Int) ≤ i := by omega
        have hlt : (i - 2).toNat < s.length := by omega
        rw [if_neg hi, if_neg hi, pyGet_nonneg s (i - 2) (by omega)]
        exact ⟨s.get ⟨(i - 2).toNat, hlt⟩, by simp [List.getElem?_eq_getElem hlt],
          by simp [List.getElem?_eq_getElem hlt]⟩
    obtain ⟨v, hv, hveq⟩ := hhead
    simp only [bwt_from_sa] at hb ⊢
    refine ⟨v :: b, ?_, by simp [hblen], ?_⟩
    · rw [List.mapM_cons, hv, hb]
      rfl
    · intro k j hk
      match k with
      | 0 =>
        simp only [List.getElem?_cons_zero, Option.some.injEq] at hk
        subst hk
        simpa using hveq
      | k + 1 =>
        simp only [List.getElem?_cons_succ] at hk ⊢
        exact hbpt k j hk

/-- C3: for every non-empty string `s` and 1-based suffix array `sa` (entries
in `[1, |s|]`), `bwt_from_sa` succeeds and its `k`-th symbol is the symbol of
`s` immediately preceding the suffix starting at `sa[k]` (`s[sa[k]-2]`,
0-based), wrapping to the last symbol of `s` when `sa[k] = 1`.  In particular,
the `a2q3` pipeline on `"banana$"` yields the suffix array
`[7, 6, 4, 2, 1, 5, 3]`, from which the BWT is `"annb$aa"`, and extracting the
suffix array twice from the same built tree yields identical output (the
extraction reads the tree without mutating it, so it is a pure function of
the built tree in this embedding). -/
theorem c3_bwt_from_sa_and_banana :
    (∀ (s : List Symb) (sa : List Int), s ≠ [] →
        (∀ i ∈ sa, 1 ≤ i ∧ i ≤ (s.length : Int)) →
        ∃ b, bwt_from_sa s sa = some b ∧ b.length = sa.length ∧
          ∀ (k : Nat) (i : Int), sa[k]? = some i →
            b[k]? = if i = 1 then s.getLast? else s[(i - 2).toNat]?) ∧
      A2Q3.saOfText A2Q3.bananaText = some [7, 6, 4, 2, 1, 5, 3] ∧
      bwt_from_sa A2Q3.bananaText [7, 6, 4, 2, 1, 5, 3] =
        some [97, 110, 110, 98, 36, 97, 97] ∧
      ∀ st, A2Q3.build A2Q3.bananaText = some st →
        A2Q3.suffix_array st = A2Q3.suffix_array st :=
  ⟨fun s sa hs h => bwt_from_sa_pointwise s hs sa h,
   by decide, by decide, fun _ _ => rfl⟩

/-- Witness for `c3_bwt_from_sa_and_banana` at `s = [5, 6]`, `sa = [2, 1]`. -/
theorem c3_witness :
    ∃ b, bwt_from_sa [5, 6] [2, 1] = some b ∧ b.length = ([2, 1] : List Int).length ∧
      ∀ (k : Nat) (i : Int), ([2, 1] : List Int)[k]? = some i →
        b[k]? = if i = 1 then ([5, 6] : List Symb).getLast?
          else ([5, 6] : List Symb)[(i - 2).toNat]? :=
  c3_bwt_from_sa_and_banana.1 [5, 6] [2, 1] (by decide) (by decide)

end A2Q4

namespace A2Q4

/-- C8 (run of the code at the failing input): with text `[200, 36]` (a
symbol with code point `200 >= 128` followed by `'$'`) and suffix array
`[2, 1]`, the BWT is `[200, 36]` and `encode_part_I_bwt` completes normally —
no error of any kind — while emitting an eight-bit code-point field
`11001000` for the symbol 200: `format(ord(ch), "07b")` pads to a minimum
width of 7 but never raises and never truncates, so the encoder silently
emits a wrong-width field instead of reporting an EncodingRangeError. -/
theorem c8_no_encoding_range_error :
    encode_part_I_bwt [200, 36] [2, 1] =
      some [false, true, true, false, true, true, false, true, false, false, true, false,
        false, true, true, false, true, true, false, false, true, false, false, false,
        true, true, true, true, true, true, true, true, false] ∧
      format07b 200 = [true, true, false, false, true, false, false, false] ∧
      (format07b 200).length ≠ 7 := by
  decide

end A2Q4

theorem mem_insertLe {α : Type} (le : α → α → Bool) (x y : α) (l : List α) :
    y ∈ insertLe le x l ↔ y = x ∨ y ∈ l := by
  induction l with
  | nil => simp [insertLe]
  | cons z zs ih =>
    rw [insertLe]
    by_cases h : le x z = true
    · rw [if_pos h]
      simp
    · rw [if_neg h]
      simp [ih]
      tauto

theorem mem_sortLe {α : Type} (le : α → α → Bool) (x : α) (l : List α) :
    x ∈ sortLe le l ↔ x ∈ l := by
  induction l with
  | nil => simp [sortLe]
  | cons z zs ih => simp [sortLe, mem_insertLe, ih]

namespace A2Q4

/-- Values reachable from a sorted children list were already child pointers
of the unsorted one. -/
theorem sortedChildren_mem (cs0 cs : List (Option Symb × Nat))
    (h : A2Q3.sortedChildren cs0 = some cs) :
    ∀ p ∈ cs, ∃ q ∈ cs0, q.2 = p.2 := by
  rcases cs0 with - | ⟨c1, - | ⟨c2, rest⟩⟩
  · simp only [A2Q3.sortedChildren, Option.some.injEq] at h
    subst h
    intro p hp
    simp at hp
  · simp only [A2Q3.sortedChildren, Option.some.injEq] at h
    subst h
    intro p hp
    obtain rfl := List.mem_singleton.mp hp
    exact ⟨p, by simp, rfl⟩
  · simp only [A2Q3.sortedChildren] at h
    by_cases hall : ((c1 :: c2 :: rest).all fun p => p.1.isSome) = true
    · rw [if_pos hall, Option.some.injEq] at h
      intro p hp
      rw [← h] at hp
      obtain ⟨x, hx, hfx⟩ := List.mem_map.mp hp
      obtain ⟨q, hq, hgq⟩ := List.mem_map.mp ((mem_sortLe _ x _).mp hx)
      refine ⟨q, hq, ?_⟩
      rw [← hfx, ← hgq]
    · rw [if_neg hall] at h
      exact absurd h (by simp)

/-- The source serializer and the spec serializer agree step by step on every
worklist whose child entries point inside the arena at nodes with real
incoming edges. -/
theorem ser1_eq_serSpec (st : A2Q3.ST) (hwf : WFTree st) :
    ∀ (fuel : Nat) (items : List SerItem),
      (∀ idx d, SerItem.child idx d ∈ items →
        idx < st.nodes.length ∧ (A2Q3.getNode st idx).start ≠ -1) →
      ser1 st fuel items = serSpec st fuel items := by
  intro fuel
  induction fuel with
  | zero => intro items _; rfl
  | succ fuel ih =>
    intro items hinv
    rcases items with - | ⟨it, rest⟩
    · rfl
    rcases it with ⟨idx, d⟩ | -
    · obtain ⟨hidx, hstart⟩ := hinv idx d (by simp)
      have hrest : ∀ idx' d', SerItem.child idx' d' ∈ rest →
          idx' < st.nodes.length ∧ (A2Q3.getNode st idx').start ≠ -1 :=
        fun idx' d' hd => hinv idx' d' (by simp [hd])
      simp only [ser1, serSpec]
      rw [if_neg hstart]
      rcases hfs : A2Q2.fibonacci_encode ((A2Q3.getNode st idx).start + 1) with - | fs
      · simp [hfs]
      rcases hfe : A2Q2.fibonacci_encode (A2Q3.endVal st (A2Q3.getNode st idx) + 1) with - | fe
      · simp [hfs, hfe]
      by_cases hleaf : (A2Q3.getNode st idx).children.isEmpty = true
      · rcases hfsi : A2Q2.fibonacci_encode
            ((st.text.length : Int) -
              (d + (A2Q3.endVal st (A2Q3.getNode st idx) + 1 -
                ((A2Q3.getNode st idx).start + 1) + 1)) + 1) with - | fsi
        · simp [hfs, hfe, hleaf, hfsi]
        · simp [hfs, hfe, hleaf, hfsi, ih rest hrest]
      · rcases hsc : A2Q3.sortedChildren (A2Q3.getNode st idx).children with - | cs
        · simp [hfs, hfe, hleaf, hsc]
        · have hnew : ∀ (acc : Int) (idx' : Nat) (d' : Int),
              SerItem.child idx' d' ∈
                (cs.map (fun p => SerItem.child p.2 acc)) ++ (SerItem.up :: rest) →
              idx' < st.nodes.length ∧ (A2Q3.getNode st idx').start ≠ -1 := by
            intro acc idx' d' hd
            rcases List.mem_append.mp hd with hl | hr
            · obtain ⟨p, hp, hpe⟩ := List.mem_map.mp hl
              cases hpe
              obtain ⟨q, hq, hq2⟩ := sortedChildren_mem _ _ hsc p hp
              have hq3 := hwf idx hidx q hq
              rw [hq2] at hq3
              exact hq3
            · rcases List.mem_cons.mp hr with hu | hm
              · exact absurd hu (by simp)
              · exact hrest idx' d' hm
          simp [hfs, hfe, hleaf, hsc]
          rw [ih (cs.map (fun p => SerItem.child p.2
              (d + (A2Q3.endVal st (A2Q3.getNode st idx) -
                (A2Q3.getNode st idx).start + 1))) ++ (SerItem.up :: rest)) (hnew _)]
    · show (ser1 st fuel rest).map _ = (serSpec st fuel rest).map _
      rw [ih rest (fun idx d hd => hinv idx d (by simp [hd]))]

/-- C7: on every well-formed node arena (child pointers in bounds, every
child with a real incoming edge — true of the trees `a2q3` builds), the bit
stream of `encode_part_II_from_q3_tree` is exactly the DFS serialization
described by the spec: per child a descend marker `0` and the Fibonacci codes
of the 1-based edge start and end; for a leaf an ascend marker `1` plus the
Fibonacci code of the 1-based suffix start `N - path_length + 1`; for an
internal child its subtree followed by a bare ascend marker; and a final
ascend marker closing the root. -/
theorem c7_encode_part_II_matches_spec (st : A2Q3.ST) (hwf : WFTree st) :
    encode_part_II_from_q3_tree st = dfsSerializationSpec st := by
  rw [encode_part_II_from_q3_tree, dfsSerializationSpec]
  rcases hcs : A2Q3.sortedChildren (A2Q3.getNode st 0).children with - | cs
  · rfl
  · have hinv : ∀ (idx : Nat) (d : Int),
        SerItem.child idx d ∈ cs.map (fun p => SerItem.child p.2 0) →
        idx < st.nodes.length ∧ (A2Q3.getNode st idx).start ≠ -1 := by
      intro idx d hd
      obtain ⟨p, hp, hpe⟩ := List.mem_map.mp hd
      cases hpe
      obtain ⟨q, hq, hq2⟩ := sortedChildren_mem _ _ hcs p hp
      by_cases hl : st.nodes.length = 0
      · exfalso
        have hnil : st.nodes = [] := List.length_eq_zero.mp hl
        have hroot : A2Q3.getNode st 0 = default := by simp [A2Q3.getNode, hnil]
        rw [hroot] at hq
        exact (List.not_mem_nil q) hq
      · have hq3 := hwf 0 (by omega) q hq
        rw [hq2] at hq3
        exact hq3
    simp [hcs, ser1_eq_serSpec st hwf _ _ hinv]

/-- Witness for `c7_encode_part_II_matches_spec` at the tree built for
`"banana$"`. -/
theorem c7_witness :
    WFTree ((A2Q3.build A2Q3.bananaText).getD (A2Q3.initST A2Q3.bananaText)) ∧
      encode_part_II_from_q3_tree ((A2Q3.build A2Q3.bananaText).getD (A2Q3.initST A2Q3.bananaText)) =
        dfsSerializationSpec ((A2Q3.build A2Q3.bananaText).getD (A2Q3.initST A2Q3.bananaText)) :=
  ⟨by decide, c7_encode_part_II_matches_spec _ (by decide)⟩

end A2Q4

theorem insertLe_perm {α : Type} (le : α → α → Bool) (x : α) (l : List α) :
    List.Perm (insertLe le x l) (x :: l) := by
  induction l with
  | nil => rfl
  | cons z zs ih =>
    rw [insertLe]
    by_cases h : le x z = true
    · rw [if_pos h]
    · rw [if_neg h]
      exact (ih.cons z).trans (List.Perm.swap x z zs)

theorem sortLe_perm {α : Type} (le : α → α → Bool) (l : List α) :
    List.Perm (sortLe le l) l := by
  induction l with
  | nil => rfl
  | cons z zs ih =>
    rw [sortLe]
    exact (insertLe_perm le z (sortLe le zs)).trans (ih.cons z)

namespace A2Q4

theorem foldl_min_mem (xs : List HNode) : ∀ (acc : HNode),
    xs.foldl (fun acc y => if hlt y acc then y else acc) acc ∈ acc :: xs := by
  induction xs with
  | nil => intro acc; simp
  | cons y ys ih =>
    intro acc
    rw [List.foldl_cons]
    by_cases h : hlt y acc = true
    · rw [if_pos h]
      have hy := ih y
      simp only [List.mem_cons] at hy ⊢
      tauto
    · rw [if_neg h]
      have ha := ih acc
      simp only [List.mem_cons] at ha ⊢
      tauto

theorem popMin_mem (l : List HNode) (a : HNode) (l' : List HNode)
    (h : popMin l = some (a, l')) : a ∈ l ∧ l' = l.erase a := by
  rcases l with - | ⟨x, xs⟩
  · simp [popMin] at h
  · simp only [popMin, Option.some.injEq, Prod.mk.injEq] at h
    obtain ⟨ha, hl⟩ := h
    subst ha
    exact ⟨foldl_min_mem xs x, hl.symm⟩

theorem popMin_isSome (l : List HNode) (hne : l ≠ []) : ∃ a l', popMin l = some (a, l') := by
  rcases l with - | ⟨x, xs⟩
  · exact absurd rfl hne
  · exact ⟨_, _, rfl⟩

/-- The merge loop with enough fuel reduces a non-empty pool to a single
node carrying the same multiset of leaf symbols. -/
theorem mergeLoop_spec : ∀ (fuel : Nat) (h : List HNode),
    1 ≤ h.length → h.length ≤ fuel + 1 →
    ∃ root, mergeLoop fuel h = [root] ∧ List.Perm (leafSyms root) (heapSyms h) := by
  intro fuel
  induction fuel with
  | zero =>
    intro h h1 h2
    rcases h with - | ⟨x, - | ⟨y, ys⟩⟩
    · simp at h1
    · exact ⟨x, rfl, by simp [heapSyms]⟩
    · simp at h2
  | succ fuel ih =>
    intro h h1 h2
    by_cases hlen : h.length > 1
    · obtain ⟨a, h1', hpop1⟩ := popMin_isSome h (by intro hh; rw [hh] at h1; simp at h1)
      obtain ⟨ha, he1⟩ := popMin_mem h a h1' hpop1
      have hlen1 : h1'.length = h.length - 1 := by
        rw [he1]; exact List.length_erase_of_mem ha
      obtain ⟨b, h2', hpop2⟩ := popMin_isSome h1' (by
        intro hh; rw [hh] at hlen1; simp at hlen1; omega)
      obtain ⟨hb, he2⟩ := popMin_mem h1' b h2' hpop2
      have hlen2 : h2'.length = h1'.length - 1 := by
        rw [he2]; exact List.length_erase_of_mem hb
      obtain ⟨root, hml, hperm⟩ := ih (h2' ++ [HNode.node (a.fr + b.fr) a b])
        (by simp) (by simp; omega)
      refine ⟨root, ?_, ?_⟩
      · rw [mergeLoop, if_pos hlen, hpop1]
        simp only [hpop2]
        exact hml
      · refine hperm.trans ?_
        have hhp : List.Perm h (a :: h1') := by rw [he1]; exact List.perm_cons_erase ha
        have hhp2 : List.Perm h1' (b :: h2') := by rw [he2]; exact List.perm_cons_erase hb
        have hs1 : List.Perm (heapSyms h) (leafSyms a ++ (leafSyms b ++ heapSyms h2')) := by
          have p1 : List.Perm (heapSyms h) (heapSyms (a :: h1')) := hhp.flatMap_right leafSyms
          have p2 : List.Perm (heapSyms h1') (heapSyms (b :: h2')) := hhp2.flatMap_right leafSyms
          refine p1.trans ?_
          simp only [heapSyms, List.flatMap_cons] at p2 ⊢
          exact p2.append_left (leafSyms a)
        have hs2 : heapSyms (h2' ++ [HNode.node (a.fr + b.fr) a b]) =
            heapSyms h2' ++ (leafSyms a ++ leafSyms b) := by
          simp [heapSyms, leafSyms]
        rw [hs2]
        refine (List.perm_append_comm).trans ?_
        refine List.Perm.symm ?_
        refine hs1.trans ?_
        rw [← List.append_assoc]
    · rcases h with - | ⟨x, - | ⟨y, ys⟩⟩
      · simp at h1
      · exact ⟨x, by rw [mergeLoop, if_neg hlen], by simp [heapSyms]⟩
      · exfalso
        simp at hlen

/-- Codes assigned by `traverse` under a non-empty prefix: every entry
extends the prefix and is non-empty, and entries are pairwise non-prefix of
one another. -/
theorem trav_spec (t : HNode) : ∀ (p : List Bool), p ≠ [] →
    (∀ q ∈ trav t p, p <+: q.2 ∧ q.2 ≠ []) ∧
      (trav t p).Pairwise (fun a b => ¬ a.2 <+: b.2 ∧ ¬ b.2 <+: a.2) := by
  induction t with
  | leaf f s =>
    intro p hp
    constructor
    · intro q hq
      simp only [trav, if_neg hp, List.mem_singleton] at hq
      subst hq
      exact ⟨List.prefix_refl p, hp⟩
    · simp [trav]
  | node f l r ihl ihr =>
    intro p hp
    obtain ⟨ml, pl⟩ := ihl (p ++ [false]) (by simp)
    obtain ⟨mr, pr⟩ := ihr (p ++ [true]) (by simp)
    have hcross : ∀ a ∈ trav l (p ++ [false]), ∀ b ∈ trav r (p ++ [true]),
        ¬ a.2 <+: b.2 ∧ ¬ b.2 <+: a.2 := by
      intro a ha b hb
      obtain ⟨hpa, -⟩ := ml a ha
      obtain ⟨hpb, -⟩ := mr b hb
      constructor
      · intro hab
        have h1 : p ++ [false] <+: b.2 := hpa.trans hab
        have heq : p ++ [false] = p ++ [true] :=
          (List.prefix_of_prefix_length_le h1 hpb (by simp)).eq_of_length (by simp)
        simp at heq
      · intro hba
        have h1 : p ++ [true] <+: a.2 := hpb.trans hba
        have heq : p ++ [true] = p ++ [false] :=
          (List.prefix_of_prefix_length_le h1 hpa (by simp)).eq_of_length (by simp)
        simp at heq
    constructor
    · intro q hq
      simp only [trav, List.mem_append] at hq
      rcases hq with h | h
      · obtain ⟨hq1, hq2⟩ := ml q h
        exact ⟨(List.prefix_append p [false]).trans hq1, hq2⟩
      · obtain ⟨hq1, hq2⟩ := mr q h
        exact ⟨(List.prefix_append p [true]).trans hq1, hq2⟩
    · simp only [trav]
      exact List.pairwise_append.mpr ⟨pl, pr, hcross⟩

/-- The same properties for the top-level call `traverse(root, "")` when the
root is a merged (internal) node. -/
theorem trav_root_spec (f : Nat) (l r : HNode) :
    (∀ q ∈ trav (HNode.node f l r) [], q.2 ≠ []) ∧
      (trav (HNode.node f l r) []).Pairwise (fun a b => ¬ a.2 <+: b.2 ∧ ¬ b.2 <+: a.2) := by
  obtain ⟨ml, pl⟩ := trav_spec l [false] (by simp)
  obtain ⟨mr, pr⟩ := trav_spec r [true] (by simp)
  have htriv : trav (HNode.node f l r) [] = trav l [false] ++ trav r [true] := by
    simp [trav]
  have hcross : ∀ a ∈ trav l [false], ∀ b ∈ trav r [true],
      ¬ a.2 <+: b.2 ∧ ¬ b.2 <+: a.2 := by
    intro a ha b hb
    obtain ⟨hpa, -⟩ := ml a ha
    obtain ⟨hpb, -⟩ := mr b hb
    constructor
    · intro hab
      have h1 : [false] <+: b.2 := hpa.trans hab
      have heq : [false] = [true] :=
        (List.prefix_of_prefix_length_le h1 hpb (by simp)).eq_of_length (by simp)
      simp at heq
    · intro hba
      have h1 : [true] <+: a.2 := hpb.trans hba
      have heq : [true] = [false] :=
        (List.prefix_of_prefix_length_le h1 hpa (by simp)).eq_of_length (by simp)
      simp at heq
  constructor
  · intro q hq
    rw [htriv, List.mem_append] at hq
    rcases hq with h | h
    · exact (ml q h).2
    · exact (mr q h).2
  · rw [htriv]
    exact List.pairwise_append.mpr ⟨pl, pr, hcross⟩

/-- The keys written into the `codes` dictionary are exactly the leaf symbols
in traversal order. -/
theorem trav_keys (t : HNode) : ∀ p, (trav t p).map Prod.fst = leafSyms t := by
  induction t with
  | leaf f s => intro p; simp [trav, leafSyms]
  | node f l r ihl ihr => intro p; simp [trav, leafSyms, ihl, ihr]

theorem heapSyms_map_leaf (f : Symb → Nat) : ∀ (syms : List Symb),
    heapSyms (syms.map (fun c => HNode.leaf (f c) c)) = syms := by
  intro syms
  induction syms with
  | nil => rfl
  | cons s ss ih => simp only [List.map_cons, heapSyms, List.flatMap_cons, leafSyms] at ih ⊢; rw [ih]; rfl

theorem lookupCode_mem (codes : List (Symb × List Bool)) (s : Symb)
    (h : s ∈ codes.map Prod.fst) :
    ∃ c, lookupCode codes s = some c ∧ (s, c) ∈ codes := by
  induction codes with
  | nil => simp at h
  | cons q qs ih =>
    obtain ⟨q1, q2⟩ := q
    by_cases hq : q1 = s
    · subst hq
      refine ⟨q2, ?_, by simp⟩
      rw [lookupCode, List.find?_cons_of_pos _ (by simp)]
      rfl
    · have h' : s ∈ qs.map Prod.fst := by
        simp only [List.map_cons, List.mem_cons] at h
        rcases h with h | h
        · exact absurd h.symm hq
        · exact h
      obtain ⟨c, hc, hm⟩ := ih h'
      refine ⟨c, ?_, List.mem_cons_of_mem _ hm⟩
      rw [lookupCode, List.find?_cons_of_neg _ (by simp [hq])]
      rw [lookupCode] at hc
      exact hc

/-- On a prefix-free table, greedy matching against `c ++ bits'` finds
exactly the entry whose code is `c`. -/
theorem find_code (s : Symb) (c : List Bool) :
    ∀ (codes : List (Symb × List Bool)),
      codes.Pairwise (fun a b => ¬ a.2 <+: b.2 ∧ ¬ b.2 <+: a.2) →
      (s, c) ∈ codes →
      ∀ bits', codes.find? (fun p => p.2.isPrefixOf (c ++ bits')) = some (s, c) := by
  intro codes
  induction codes with
  | nil =>
    intro _ h
    simp at h
  | cons q qs ih =>
    intro hpw hm bits'
    rcases List.mem_cons.mp hm with he | hm'
    · rw [← he]
      have hqb : c.isPrefixOf (c ++ bits') = true :=
        List.isPrefixOf_iff_prefix.mpr (List.prefix_append c bits')
      simp only [List.find?_cons, hqb]
    · have hqc := (List.pairwise_cons.mp hpw).1 (s, c) hm'
      have hqc1 : ¬ q.2 <+: c := by simpa using hqc.1
      have hqc2 : ¬ c <+: q.2 := by simpa using hqc.2
      have hqb : q.2.isPrefixOf (c ++ bits') = false := by
        rw [Bool.eq_false_iff]
        intro hpre
        rw [List.isPrefixOf_iff_prefix] at hpre
        by_cases hl : q.2.length ≤ c.length
        · exact hqc1 (List.prefix_of_prefix_length_le hpre (List.prefix_append c bits') hl)
        · exact hqc2
            (List.prefix_of_prefix_length_le (List.prefix_append c bits') hpre (by omega))
      rw [List.find?_cons]
      rw [hqb]
      exact ih (List.pairwise_cons.mp hpw).2 hm' bits'

/-- Greedy decoding inverts the concatenation of codewords on any prefix-free
table with non-empty codes, given fuel at least the bit length. -/
theorem decode_encoded (codes : List (Symb × List Bool))
    (hpw : codes.Pairwise (fun a b => ¬ a.2 <+: b.2 ∧ ¬ b.2 <+: a.2))
    (hne : ∀ q ∈ codes, q.2 ≠ []) :
    ∀ (seq : List Symb) (bits : List Bool) (fuel : Nat),
      encodeSeq codes seq = some bits → bits.length ≤ fuel →
      decodeHAux codes fuel bits = some seq := by
  intro seq
  induction seq with
  | nil =>
    intro bits fuel he hf
    rw [show encodeSeq codes [] = some [] from rfl] at he
    have hb := Option.some.inj he
    rw [← hb]
    cases fuel <;> rfl
  | cons s rest ihs =>
    intro bits fuel he hf
    have hparts : ∃ c, lookupCode codes s = some c ∧
        ∃ bits', encodeSeq codes rest = some bits' ∧ bits = c ++ bits' := by
      rcases hlc : lookupCode codes s with - | c
      · rw [encodeSeq, List.mapM_cons, hlc] at he
        simp at he
      rcases hrm : List.mapM (lookupCode codes) rest with - | cs
      · rw [encodeSeq, List.mapM_cons, hlc, hrm] at he
        simp at he
      rw [encodeSeq, List.mapM_cons, hlc, hrm] at he
      simp at he
      refine ⟨c, rfl, cs.flatten, ?_, ?_⟩
      · rw [encodeSeq, hrm]
        rfl
      · rw [← he]
    obtain ⟨c, hc, bits', hrest, hbits⟩ := hparts
    have hmem : (s, c) ∈ codes := by
      rw [lookupCode] at hc
      rcases hfd : codes.find? (fun p => p.1 = s) with - | a
      · rw [hfd] at hc
        simp at hc
      · rw [hfd] at hc
        simp at hc
        have ha1 : a.1 = s := by simpa using List.find?_some hfd
        have ham := List.mem_of_find?_eq_some hfd
        have haa : a = (s, c) := by
          obtain ⟨a1, a2⟩ := a
          simp at ha1 hc
          rw [ha1, hc]
        rw [← haa]
        exact ham
    have hcne : c ≠ [] := hne (s, c) hmem
    rcases c with - | ⟨cb, ctl⟩
    · exact absurd rfl hcne
    subst hbits
    rcases fuel with - | fuel
    · simp at hf
    rw [show (cb :: ctl) ++ bits' = cb :: (ctl ++ bits') from rfl]
    rw [decodeHAux]
    rw [show cb :: (ctl ++ bits') = (cb :: ctl) ++ bits' from rfl]
    rw [find_code s (cb :: ctl) codes hpw hmem bits']
    show (decodeHAux codes fuel (((cb :: ctl) ++ bits').drop (cb :: ctl).length)).map
      (fun r => s :: r) = some (s :: rest)
    rw [List.drop_left]
    rw [ihs bits' fuel hrest (by simp at hf ⊢; omega)]
    rfl

/-- C6: for every non-empty string, `build_huffman_codes` succeeds and yields
a prefix-free code over the string's distinct symbols: every symbol of the
string has a codeword, no codeword is a prefix of another, decoding the
concatenation of the codewords of any symbol sequence over that alphabet
reproduces the sequence, and a string with exactly one distinct symbol
assigns it the 1-bit code `"1"`. -/
theorem c6_huffman_prefix_free (text : List Symb) (ht : text ≠ []) :
    ∃ codes, build_huffman_codes text = some codes ∧
      (∀ s ∈ text, ∃ c, lookupCode codes s = some c) ∧
      codes.Pairwise (fun a b => ¬ a.2 <+: b.2 ∧ ¬ b.2 <+: a.2) ∧
      (∀ (seq : List Symb) (bits : List Bool), (∀ s ∈ seq, s ∈ text) →
        encodeSeq codes seq = some bits → huffDecode codes bits = some seq) ∧
      (∀ s, (∀ x ∈ text, x = s) → codes = [(s, [true])]) := by
  have hmem : ∀ s, s ∈ sortedDistinct text ↔ s ∈ text := by
    intro s
    rw [sortedDistinct, mem_sortLe, List.mem_dedup]
  have hnd : (sortedDistinct text).Nodup := by
    rw [sortedDistinct]
    exact ((sortLe_perm _ _).nodup_iff).mpr (List.nodup_dedup text)
  rcases hsyms : sortedDistinct text with - | ⟨s₁, - | ⟨s₂, rest⟩⟩
  · exfalso
    rcases List.exists_mem_of_ne_nil text ht with ⟨x, hx⟩
    have hx2 := (hmem x).mpr hx
    rw [hsyms] at hx2
    simp at hx2
  · have hb : build_huffman_codes text = some [(s₁, [true])] := by
      simp only [build_huffman_codes, hsyms]
    have hs1text : s₁ ∈ text := (hmem s₁).mp (by rw [hsyms]; simp)
    refine ⟨[(s₁, [true])], hb, ?_, by simp, ?_, ?_⟩
    · intro s hs
      have h1 : s ∈ sortedDistinct text := (hmem s).mpr hs
      rw [hsyms] at h1
      have h2 : s = s₁ := by simpa using h1
      subst h2
      exact ⟨[true], by rw [lookupCode, List.find?_cons_of_pos _ (by simp)]; rfl⟩
    · intro seq bits hseq henc
      rw [huffDecode]
      exact decode_encoded _ (by simp) (by simp) seq bits bits.length henc (le_refl _)
    · intro s hall
      have h1 : s₁ = s := hall s₁ hs1text
      rw [h1]
  · obtain ⟨root, hml, hperm⟩ := mergeLoop_spec
      ((s₁ :: s₂ :: rest).map (fun c => HNode.leaf (countFreq text c) c)).length
      ((s₁ :: s₂ :: rest).map (fun c => HNode.leaf (countFreq text c) c))
      (by simp) (by simp)
    have hpermS : List.Perm (leafSyms root) (s₁ :: s₂ :: rest) := by
      rw [heapSyms_map_leaf (countFreq text) (s₁ :: s₂ :: rest)] at hperm
      exact hperm
    have hroot : ∃ fr l r, root = HNode.node fr l r := by
      rcases root with ⟨f, z⟩ | ⟨f, l, r⟩
      · exfalso
        have hle := hpermS.length_eq
        simp [leafSyms] at hle
      · exact ⟨f, l, r, rfl⟩
    obtain ⟨fr, l, r, hre⟩ := hroot
    subst hre
    have hb : build_huffman_codes text = some (trav (HNode.node fr l r) []) := by
      simp only [build_huffman_codes, hsyms]
      rw [hml]
      rfl
    obtain ⟨hne', hpw⟩ := trav_root_spec fr l r
    have hkeys := trav_keys (HNode.node fr l r) []
    refine ⟨trav (HNode.node fr l r) [], hb, ?_, hpw, ?_, ?_⟩
    · intro s hs
      have h1 : s ∈ sortedDistinct text := (hmem s).mpr hs
      rw [hsyms] at h1
      have h2 : s ∈ leafSyms (HNode.node fr l r) := (hpermS.mem_iff).mpr h1
      have h3 : s ∈ (trav (HNode.node fr l r) []).map Prod.fst := by
        rw [hkeys]; exact h2
      obtain ⟨c, hc, -⟩ := lookupCode_mem _ s h3
      exact ⟨c, hc⟩
    · intro seq bits hseq henc
      rw [huffDecode]
      exact decode_encoded _ hpw hne' seq bits bits.length henc (le_refl _)
    · intro s hall
      exfalso
      have h1 : s₁ ∈ text := (hmem s₁).mp (by rw [hsyms]; simp)
      have h2 : s₂ ∈ text := (hmem s₂).mp (by rw [hsyms]; simp)
      rw [hsyms] at hnd
      have hne12 : s₁ ≠ s₂ := by
        have hcons := List.nodup_cons.mp hnd
        intro hq
        exact hcons.1 (by rw [hq]; simp)
      exact hne12 (by rw [hall s₁ h1, hall s₂ h2])

/-- Witness for `c6_huffman_prefix_free` at the text `"banana$"`. -/
theorem c6_witness :
    ∃ codes, build_huffman_codes [98, 97, 110, 97, 110, 97, 36] = some codes ∧
      (∀ s ∈ ([98, 97, 110, 97, 110, 97, 36] : List Symb), ∃ c, lookupCode codes s = some c) ∧
      codes.Pairwise (fun a b => ¬ a.2 <+: b.2 ∧ ¬ b.2 <+: a.2) ∧
      (∀ (seq : List Symb) (bits : List Bool),
        (∀ s ∈ seq, s ∈ ([98, 97, 110, 97, 110, 97, 36] : List Symb)) →
        encodeSeq codes seq = some bits → huffDecode codes bits = some seq) ∧
      (∀ s, (∀ x ∈ ([98, 97, 110, 97, 110, 97, 36] : List Symb), x = s) →
        codes = [(s, [true])]) :=
  c6_huffman_prefix_free [98, 97, 110, 97, 110, 97, 36] (by decide)

end A2Q4
